import Mathlib

/-!
Verification development for the fin-agent repository.

The definitions below are a shallow embedding of the agent orchestration
core (`fin_agent/agent/core.py`, `FinAgent.run`) and of the tool dispatch
helper (`fin_agent/tools/tushare_tools.py`, `execute_tool_call`).
Streamed text is modelled as `List Char`; the think-tag demultiplexer is
translated directly from the buffer/split logic of the streaming loop.
External collaborators (the LLM transport, `json.loads`, the tushare tool
bodies, the user-profile summary) are abstracted as parameters, exactly as
the specification treats them (out-of-scope interfaces).
-/

namespace FinAgentModel

/-- The open sentinel marker `<think>` (7 characters). -/
def openTag : List Char := "<think>".data

/-- The close sentinel marker `</think>` (8 characters). -/
def closeTag : List Char := "</think>".data

/-- Boolean test that `pat` starts the list `l`
(models Python `str.startswith` / the first-position case of `in`). -/
def hasPre : List Char → List Char → Bool
  | [], _ => true
  | _ :: _, [] => false
  | a :: as, b :: bs => a == b && hasPre as bs

/-- Split `l` at the first occurrence of `pat`, returning the text before
and after that occurrence.  `none` when `pat` does not occur.  This models
Python `buffer.split(pat, 1)` guarded by `pat in buffer`. -/
def splitFirst (pat : List Char) : List Char → Option (List Char × List Char)
  | [] => if hasPre pat [] then some ([], []) else none
  | c :: rest =>
    if hasPre pat (c :: rest) then some ([], (c :: rest).drop pat.length)
    else
      match splitFirst pat rest with
      | some (pre, post) => some (c :: pre, post)
      | none => none

/-- State of the think-tag demultiplexer inside the streaming loop of
`FinAgent.run`: `thinking` is `thinking_state`, `buffer` the pending text,
`visible` the total text handed to the markdown sink (`update_md`) and
`hidden` the total reasoning text printed in the dim style. -/
structure Demux where
  thinking : Bool := false
  buffer : List Char := []
  visible : List Char := []
  hidden : List Char := []
  deriving DecidableEq, Repr

/-- After the close marker, the loop consumes one immediately following
newline from the remaining buffer (`core.py` lines 222-225). -/
def stripNL (post : List Char) : List Char :=
  if post.take 1 = ['\n'] then post.drop 1
  else if post.take 2 = ['\r', '\n'] then post.drop 2
  else post

/-- One pass of the inner `while True` loop over the buffer
(`core.py` lines 184-234), written with explicit fuel so that it is
structurally recursive; `procBuffer` below supplies sufficient fuel. -/
def procLoop : Nat → Demux → Demux
  | 0, st => st
  | fuel + 1, st =>
    if st.thinking then
      match splitFirst closeTag st.buffer with
      | some (pre, post) =>
        procLoop fuel { st with
          thinking := false
          hidden := st.hidden ++ pre
          buffer := stripNL post }
      | none =>
        if st.buffer.length < 8 then st
        else { st with
          hidden := st.hidden ++ st.buffer.take (st.buffer.length - 7)
          buffer := st.buffer.drop (st.buffer.length - 7) }
    else
      match splitFirst openTag st.buffer with
      | some (pre, post) =>
        procLoop fuel { st with
          thinking := true
          visible := st.visible ++ pre
          buffer := post }
      | none =>
        if st.buffer.length < 7 then st
        else { st with
          visible := st.visible ++ st.buffer.take (st.buffer.length - 6)
          buffer := st.buffer.drop (st.buffer.length - 6) }

/-- Run the inner buffer loop to completion.  Every recursive step of the
loop removes at least a full marker from the buffer, so `length + 1` fuel
always suffices (proved in `procLoop_fuel_stable`). -/
def procBuffer (st : Demux) : Demux :=
  procLoop (st.buffer.length + 1) st

/-- Feeding one content delta: append it to the buffer and run the inner
loop (`buffer += content` followed by the `while True` loop). -/
def feedChunk (st : Demux) (c : List Char) : Demux :=
  procBuffer { st with buffer := st.buffer ++ c }

/-- Feed a whole sequence of content deltas. -/
def feedAll (st : Demux) : List (List Char) → Demux
  | [] => st
  | c :: cs => feedAll (feedChunk st c) cs

/-- End-of-stream flush (`core.py` lines 239-247): the remaining buffer is
emitted on the channel of the current mode. -/
def flushD (st : Demux) : Demux :=
  if st.thinking then { st with hidden := st.hidden ++ st.buffer, buffer := [] }
  else { st with visible := st.visible ++ st.buffer, buffer := [] }

/-- Demultiplex a complete chunked stream: feed every chunk, then flush. -/
def demuxRun (cs : List (List Char)) : Demux :=
  flushD (feedAll {} cs)

/-! ### Messages, tool calls and the agent loop -/

/-- Message roles, as used in the history dictionaries of `core.py`. -/
inductive Role
  | system
  | user
  | assistant
  | tool
  deriving DecidableEq, Repr

/-- A tool call attached to an assistant message
(`tool_call.id`, `tool_call.function.name`, `tool_call.function.arguments`). -/
structure ToolCall where
  id : String
  name : String
  args : String
  deriving DecidableEq, Repr

/-- A history entry (`core.py` stores these as dictionaries or
message objects; `_to_dict` normalizes them to this shape). -/
structure Msg where
  role : Role
  content : List Char
  tool_calls : Option (List ToolCall) := none
  tool_call_id : Option String := none
  deriving DecidableEq, Repr

/-- One element of the lazy streaming sequence returned by the transport:
either a raw text delta (`chunk['type'] == 'content'`) or the terminal
assembled message (`chunk['type'] == 'response'`). -/
inductive Chunk
  | content (text : List Char)
  | response (m : Msg)
  deriving DecidableEq, Repr

/-- `true` exactly on `content`-kind chunks. -/
def isContentChunk : Chunk → Bool
  | .content _ => true
  | .response _ => false

/-- The outcome of one `self.llm.chat(...)` call, as observed by the loop:
the call raises, returns a completed message, or returns a generator of
chunks.  `intr = some k` models a `KeyboardInterrupt` raised at the
`(k+1)`-th pull from the generator. -/
inductive ChatRes
  | err
  | msg (m : Msg)
  | stream (chunks : List Chunk) (intr : Option Nat)
  deriving Repr

/-- Mutable state of the streaming pump in `FinAgent.run`: the demux
state, `full_content`, and the `message` variable (set only by a
`response`-kind chunk). -/
structure PumpSt where
  demux : Demux := {}
  fullContent : List Char := []
  message : Option Msg := none
  deriving DecidableEq, Repr

/-- Processing one chunk inside the `for chunk in response` loop. -/
def stepChunk (st : PumpSt) : Chunk → PumpSt
  | .content t =>
    { st with fullContent := st.fullContent ++ t, demux := feedChunk st.demux t }
  | .response m => { st with message := some m }

/-- The chunk pump: a synchronous pull loop over the lazy sequence.  The
returned flag is `stream_interrupted`.  A `KeyboardInterrupt` at a pull
stops the loop immediately; otherwise the loop ends when the sequence is
exhausted. -/
def pump : Option Nat → List Chunk → PumpSt → PumpSt × Bool
  | some 0, _, st => (st, true)
  | _, [], st => (st, false)
  | intr, c :: rest, st => pump (intr.map (· - 1)) rest (stepChunk st c)

/-- The tool message appended for one executed call
(`core.py` lines 315-319): role `tool`, `tool_call_id` from the call,
content the stringified tool result.  `exec` abstracts
`execute_tool_call` as a total string-valued function. -/
def mkToolMsg (exec : String → String → List Char) (tc : ToolCall) : Msg :=
  { role := .tool, content := exec tc.name tc.args, tool_call_id := some tc.id }

/-- Result value of `FinAgent.run`: a final answer string, the empty
string (streaming already printed, or interruption), or the
`"Error: ..."` string produced when the chat call raises. -/
inductive RunRet
  | answer (t : List Char)
  | empty
  | errorStr
  deriving DecidableEq, Repr

/-- Observable outcome of a run: a returned value together with the final
history, or an uncaught exception escaping `run` (carrying the history at
that moment), or the model's marker for a script that ended while the
loop still wanted another chat call. -/
inductive Outcome
  | ret (r : RunRet) (hist : List Msg)
  | crash (hist : List Msg)
  | outOfScript (hist : List Msg)
  deriving DecidableEq, Repr

/-- The `while True` loop of `FinAgent.run` (`core.py` lines 129-319).
`sm` is `Config.LLM_STREAM`; `exec` abstracts `execute_tool_call`;
`step` is the loop's step counter (incremented every iteration, never
read); `script` supplies the outcome of each successive chat call; `hist`
is `self.history` at loop entry.

Faithful behaviours modelled: the chat-call `try/except` returning an
error string without touching history; the streaming pump with the
think-tag demux; the interrupt path committing `full_content` (the raw
accumulated deltas) as an assistant message and returning `""`; the
`AttributeError` crash when the stream ends with `message` still `None`;
the Python-truthiness test `if not message.tool_calls` (both `None` and
`[]` mean a final answer); and sequential tool dispatch appending one
tool message per call in request order. -/
def runLoop (sm : Bool) (exec : String → String → List Char) :
    Nat → List ChatRes → List Msg → Outcome
  | _, [], hist => .outOfScript hist
  | step, r :: rest, hist =>
    match r with
    | .err => .ret .errorStr hist
    | .msg m =>
      match m.tool_calls with
      | none => .ret (if sm then .empty else .answer m.content) (hist ++ [m])
      | some [] => .ret (if sm then .empty else .answer m.content) (hist ++ [m])
      | some calls =>
        runLoop sm exec (step + 1) rest (hist ++ [m] ++ calls.map (mkToolMsg exec))
    | .stream chunks intr =>
      match pump intr chunks {} with
      | (st, true) =>
        if st.fullContent ≠ [] then
          .ret .empty
            (hist ++ [{ role := .assistant, content := st.fullContent, tool_calls := none }])
        else .ret .empty hist
      | (st, false) =>
        match st.message with
        | none => .crash hist
        | some m =>
          match m.tool_calls with
          | none => .ret (if sm then .empty else .answer m.content) (hist ++ [m])
          | some [] => .ret (if sm then .empty else .answer m.content) (hist ++ [m])
          | some calls =>
            runLoop sm exec (step + 1) rest (hist ++ [m] ++ calls.map (mkToolMsg exec))

/-- System-prompt refresh at the start of `run` (`core.py` lines
120-124): replace the content of the leading system message, or insert a
fresh one.  `sysContent` abstracts `_get_system_content()`. -/
def refreshSystem (sysContent : List Char) : List Msg → List Msg
  | [] => [{ role := .system, content := sysContent }]
  | m :: rest =>
    if m.role = .system then { m with content := sysContent } :: rest
    else { role := .system, content := sysContent } :: m :: rest

/-- `FinAgent.run(user_input)`: refresh the system prompt, append the
user message, then enter the loop with step counter 0. -/
def run (sm : Bool) (exec : String → String → List Char) (sysContent : List Char)
    (hist0 : List Msg) (userInput : List Char) (script : List ChatRes) : Outcome :=
  runLoop sm exec 0 script
    (refreshSystem sysContent hist0 ++ [{ role := .user, content := userInput }])

/-! ### The tool dispatch helper `execute_tool_call` -/

/-- The shape of a parsed JSON arguments value, as far as Python keyword
binding is concerned: an object (we record its keys) or any non-object
value.  Values of keys are irrelevant to whether `f(**arguments)`
raises, so they are folded into the abstract tool bodies. -/
inductive PyObj
  | dict (keys : List String)
  | nonDict
  deriving DecidableEq, Repr

/-- Result of `execute_tool_call`: a returned string, or an uncaught
Python exception (a `TypeError` from keyword binding) escaping the
helper. -/
inductive ExecResult
  | ok (s : List Char)
  | exn
  deriving DecidableEq, Repr

/-- Accepted and required keyword parameter names of each dispatched tool
function, read off the Python signatures in `tushare_tools.py`. -/
def toolParams : String → Option (List String × List String)
  | "get_stock_basic" => some (["ts_code", "name"], [])
  | "get_daily_price" => some (["ts_code", "start_date", "end_date"], ["ts_code"])
  | "get_realtime_price" => some (["ts_code"], ["ts_code"])
  | "get_daily_basic" => some (["ts_code", "start_date", "end_date"], ["ts_code"])
  | "get_income_statement" => some (["ts_code", "start_date", "end_date"], ["ts_code"])
  | _ => none

/-- `execute_tool_call(tool_name, arguments)` from `tushare_tools.py`
lines 264-284.  `parse` abstracts `json.loads` (`none` models a
`JSONDecodeError`); `bodies` abstracts the tool function bodies, which
are total string-returning functions (each wraps its fallible work in
`try/except` and returns an error string on failure).  Keyword binding
`f(**arguments)` raises `TypeError` — uncaught — when the parsed value is
not an object, uses a key outside the signature, or omits a required
parameter; `get_current_time` is called with no arguments at all. -/
def execute_tool_call (parse : String → Option PyObj)
    (bodies : String → PyObj → List Char)
    (tool_name : String) (arguments : String) : ExecResult :=
  match parse arguments with
  | none => .ok ("Error: Invalid JSON arguments.".data)
  | some v =>
    if tool_name = "get_current_time" then .ok (bodies tool_name v)
    else
      match toolParams tool_name with
      | some (acc, req) =>
        match v with
        | .nonDict => .exn
        | .dict keys =>
          if keys.all (fun k => acc.contains k) && req.all (fun k => keys.contains k) then
            .ok (bodies tool_name (.dict keys))
          else .exn
      | none => .ok (("Error: Tool '" ++ tool_name ++ "' not found.").data)

/-- `true` when dispatching `tool_name` on parsed arguments `v` cannot
raise at the keyword-binding boundary. -/
def bindOk (tool_name : String) (v : PyObj) : Bool :=
  if tool_name = "get_current_time" then true
  else
    match toolParams tool_name with
    | none => true
    | some (acc, req) =>
      match v with
      | .nonDict => false
      | .dict keys => keys.all (fun k => acc.contains k) && req.all (fun k => keys.contains k)

/-- Concatenated text of the `content`-kind chunks of a stream segment:
the value of `full_content` after consuming exactly those chunks. -/
def contentConcat : List Chunk → List Char
  | [] => []
  | .content t :: rest => t ++ contentConcat rest
  | .response _ :: rest => contentConcat rest

/-! ### A family of scripts with arbitrarily many tool rounds -/

/-- A fixed tool call used to build scripts of arbitrary round count. -/
def roundTC : ToolCall := ⟨"i", "t", "a"⟩

/-- An assistant message requesting one tool call. -/
def roundMsg : Msg := { role := .assistant, content := [], tool_calls := some [roundTC] }

/-- A script of `n` consecutive tool-call rounds followed by a final
assistant message with no tool calls and content `c`. -/
def scriptN (n : Nat) (c : List Char) : List ChatRes :=
  List.replicate n (ChatRes.msg roundMsg) ++
    [ChatRes.msg { role := .assistant, content := c }]

/-- The history entries appended by `n` rounds of `scriptN`. -/
def roundsHist (exec : String → String → List Char) : Nat → List Msg
  | 0 => []
  | n + 1 => [roundMsg, mkToolMsg exec roundTC] ++ roundsHist exec n

/-- The canonical single-reasoning-block text up to (and including) the
close marker: open marker, reasoning text, close marker — 20 characters.
The stream under study continues with a newline and visible text. -/
def thinkText : List Char := "<think>hello</think>".data

/-- The demux state reached after feeding the first `i` characters of
`thinkText` as a single chunk.  `feedAll_thinkSeg` proves that every
chunking of that prefix, with boundaries anywhere, reaches this same
state, so it is the canonical state at position `i`. -/
def stateOf (i : Nat) : Demux := feedChunk {} (thinkText.take i)

/-! ### Basic facts about `hasPre` and `splitFirst` -/

theorem hasPre_iff (pat l : List Char) :
    hasPre pat l = true ↔ ∃ t, l = pat ++ t := by
  induction pat generalizing l with
  | nil => simp [hasPre]
  | cons a as ih =>
    cases l with
    | nil => simp [hasPre]
    | cons b bs =>
      simp only [hasPre, Bool.and_eq_true, beq_iff_eq, ih]
      constructor
      · rintro ⟨rfl, t, rfl⟩; exact ⟨t, rfl⟩
      · rintro ⟨t, h⟩
        injection h with h1 h2
        exact ⟨h1.symm, t, h2⟩

theorem splitFirst_eq_some (pat l pre post : List Char)
    (h : splitFirst pat l = some (pre, post)) : l = pre ++ pat ++ post := by
  induction l generalizing pre post with
  | nil =>
    simp only [splitFirst] at h
    split at h
    · rename_i hp
      rw [hasPre_iff] at hp
      obtain ⟨t, ht⟩ := hp
      cases pat with
      | nil => simp at h; simp [h.1, h.2]
      | cons a as => simp at ht
    · exact absurd h (by simp)
  | cons c rest ih =>
    simp only [splitFirst] at h
    split at h
    · rename_i hp
      rw [hasPre_iff] at hp
      obtain ⟨t, ht⟩ := hp
      injection h with h'
      injection h' with h1 h2
      subst h1
      rw [← h2, ht]
      simp [List.drop_left]
    · rename_i hp
      cases hs : splitFirst pat rest with
      | none => rw [hs] at h; exact absurd h (by simp)
      | some pr =>
        rw [hs] at h
        obtain ⟨pre', post'⟩ := pr
        injection h with h'
        injection h' with h1 h2
        subst h1
        subst h2
        have := ih pre' post' hs
        simp [this]

theorem splitFirst_isSome_of_seg (pat s t l : List Char)
    (h : l = s ++ pat ++ t) : (splitFirst pat l).isSome = true := by
  induction s generalizing l with
  | nil =>
    simp only [List.nil_append] at h
    subst h
    cases hp : pat ++ t with
    | nil =>
      have : hasPre pat [] = true := by
        rw [hasPre_iff]
        exact ⟨t, hp.symm⟩
      simp [splitFirst, this]
    | cons c rest =>
      have : hasPre pat (c :: rest) = true := by
        rw [hasPre_iff]; exact ⟨t, hp.symm⟩
      simp [splitFirst, this]
  | cons a as ih =>
    subst h
    simp only [List.cons_append]
    rw [splitFirst]
    split
    · simp
    · have := ih (as ++ pat ++ t) (by simp)
      cases hs : splitFirst pat (as ++ pat ++ t) with
      | none => rw [hs] at this; simp at this
      | some pr => simp

/-- If `pat` does not occur in `L`, it does not occur in any contiguous
segment of `L`. -/
theorem splitFirst_none_of_seg (pat s t l : List Char)
    (hL : splitFirst pat (s ++ l ++ t) = none) : splitFirst pat l = none := by
  cases hs : splitFirst pat l with
  | none => rfl
  | some pr =>
    obtain ⟨pre, post⟩ := pr
    have hdec := splitFirst_eq_some pat l pre post hs
    have : s ++ l ++ t = (s ++ pre) ++ pat ++ (post ++ t) := by
      rw [hdec]; simp
    have := splitFirst_isSome_of_seg pat (s ++ pre) (post ++ t) _ this
    rw [hL] at this
    simp at this

theorem splitFirst_length_lt (pat l pre post : List Char) (hne : pat ≠ [])
    (h : splitFirst pat l = some (pre, post)) : post.length < l.length := by
  have := splitFirst_eq_some pat l pre post h
  subst this
  simp only [List.length_append]
  have : 0 < pat.length := List.length_pos.mpr hne
  omega

theorem stripNL_length_le (post : List Char) :
    (stripNL post).length ≤ post.length := by
  unfold stripNL
  split
  · simp
  · split
    · simp
    · exact le_refl _

/-! ### Fuel stability and unfolding equations for the buffer loop -/

theorem procLoop_stable (f : Nat) : ∀ (g : Nat) (st : Demux),
    st.buffer.length < f → st.buffer.length < g → procLoop f st = procLoop g st := by
  induction f with
  | zero => intro g st hf; omega
  | succ f ih =>
    intro g st hf hg
    cases g with
    | zero => omega
    | succ g =>
      rw [procLoop, procLoop]
      split
      · cases hs : splitFirst closeTag st.buffer with
        | some pr =>
          obtain ⟨pre, post⟩ := pr
          simp only
          apply ih
          · have h1 := splitFirst_length_lt closeTag st.buffer pre post (by decide) hs
            have h2 := stripNL_length_le post
            simp only
            omega
          · have h1 := splitFirst_length_lt closeTag st.buffer pre post (by decide) hs
            have h2 := stripNL_length_le post
            simp only
            omega
        | none => rfl
      · cases hs : splitFirst openTag st.buffer with
        | some pr =>
          obtain ⟨pre, post⟩ := pr
          simp only
          apply ih
          · have h1 := splitFirst_length_lt openTag st.buffer pre post (by decide) hs
            simp only
            omega
          · have h1 := splitFirst_length_lt openTag st.buffer pre post (by decide) hs
            simp only
            omega
        | none => rfl

theorem procBuffer_open (st : Demux) (pre post : List Char)
    (hth : st.thinking = false)
    (hs : splitFirst openTag st.buffer = some (pre, post)) :
    procBuffer st =
      procBuffer { st with thinking := true, visible := st.visible ++ pre, buffer := post } := by
  have hlt := splitFirst_length_lt openTag st.buffer pre post (by decide) hs
  unfold procBuffer
  rw [procLoop]
  simp only [hth, Bool.false_eq_true, if_false, hs]
  exact procLoop_stable _ _ _ (by simp; omega) (by simp)

theorem procBuffer_close (st : Demux) (pre post : List Char)
    (hth : st.thinking = true)
    (hs : splitFirst closeTag st.buffer = some (pre, post)) :
    procBuffer st =
      procBuffer { st with thinking := false, hidden := st.hidden ++ pre,
                           buffer := stripNL post } := by
  have hlt := splitFirst_length_lt closeTag st.buffer pre post (by decide) hs
  have hnl := stripNL_length_le post
  unfold procBuffer
  rw [procLoop]
  simp only [hth, if_true, hs]
  exact procLoop_stable _ _ _ (by simp; omega) (by simp)

/-- In visible mode, when the buffer contains no open marker, the loop
emits at most a safe part of the buffer and stops: the mode stays
visible, the hidden channel is untouched, the emitted and retained text
together are exactly the old buffer, and the retained buffer is a tail
segment of the old one. -/
theorem procBuffer_vis_none (st : Demux)
    (hth : st.thinking = false)
    (hs : splitFirst openTag st.buffer = none) :
    (procBuffer st).thinking = false ∧
    (procBuffer st).hidden = st.hidden ∧
    (procBuffer st).visible ++ (procBuffer st).buffer = st.visible ++ st.buffer ∧
    ∃ k, (procBuffer st).buffer = st.buffer.drop k := by
  unfold procBuffer
  rw [procLoop]
  simp only [hth, Bool.false_eq_true, if_false, hs]
  split
  · exact ⟨hth, rfl, rfl, 0, by simp⟩
  · exact ⟨rfl, rfl, by simp [List.take_append_drop], st.buffer.length - 6, rfl⟩

/-- Passthrough invariant of the feed loop: while the open marker never
occurs in the pending buffer plus the remaining stream, the mode stays
visible, the hidden channel never grows, and the emitted visible text
plus the retained buffer is exactly everything consumed. -/
theorem feedAll_vis (cs : List (List Char)) : ∀ st : Demux,
    st.thinking = false →
    splitFirst openTag (st.buffer ++ cs.flatten) = none →
    (feedAll st cs).thinking = false ∧
    (feedAll st cs).hidden = st.hidden ∧
    (feedAll st cs).visible ++ (feedAll st cs).buffer =
      st.visible ++ st.buffer ++ cs.flatten := by
  induction cs with
  | nil => intro st hth _; exact ⟨hth, rfl, by simp [feedAll]⟩
  | cons c cs ih =>
    intro st hth hno
    have hflat : (c :: cs).flatten = c ++ cs.flatten := by simp
    rw [hflat] at hno
    have hno' : splitFirst openTag ((st.buffer ++ c) ++ cs.flatten) = none := by
      rw [List.append_assoc]; exact hno
    have hs1 : splitFirst openTag (st.buffer ++ c) = none := by
      have := splitFirst_none_of_seg openTag [] cs.flatten (st.buffer ++ c)
      apply this
      simpa using hno'
    have hstep := procBuffer_vis_none { st with buffer := st.buffer ++ c } hth hs1
    obtain ⟨h1, h2, h3, k, h4⟩ := hstep
    set st2 := procBuffer { st with buffer := st.buffer ++ c } with hst2
    have hno2 : splitFirst openTag (st2.buffer ++ cs.flatten) = none := by
      apply splitFirst_none_of_seg openTag ((st.buffer ++ c).take k) []
      have hdecomp : (st.buffer ++ c).take k ++ (st2.buffer ++ cs.flatten) ++ [] =
          (st.buffer ++ c) ++ cs.flatten := by
        rw [h4]
        simp [List.take_append_drop, ← List.append_assoc]
      rw [hdecomp]
      exact hno'
    have hrest := ih st2 h1 hno2
    obtain ⟨g1, g2, g3⟩ := hrest
    have hfeed : feedAll st (c :: cs) = feedAll st2 cs := by
      simp [feedAll, feedChunk, hst2]
    refine ⟨by rw [hfeed]; exact g1, by rw [hfeed, g2, h2], ?_⟩
    rw [hfeed, g3, h3, hflat]
    simp

/-- C1: for the two-chunk feed `"<thi"` then `"nk>hello</think>world"`,
the demux loop in `FinAgent.run` emits exactly `"world"` on the visible
channel and exactly `"hello"` on the hidden channel — the open marker
split across the chunk boundary is reassembled and no marker text is
emitted on either channel. -/
theorem c1_split_marker_reassembly :
    (demuxRun ["<thi".data, "nk>hello</think>world".data]).visible = "world".data ∧
    (demuxRun ["<thi".data, "nk>hello</think>world".data]).hidden = "hello".data := by
  decide

/-- C2: for every finite sequence of content chunks whose concatenation
contains neither `"<think>"` nor `"</think>"`, the demux loop plus its
end-of-stream flush emits the concatenation unchanged and in order on the
visible channel, and emits nothing on the hidden channel. -/
theorem c2_streaming_passthrough (cs : List (List Char))
    (hopen : splitFirst openTag cs.flatten = none)
    (hclose : splitFirst closeTag cs.flatten = none) :
    (demuxRun cs).visible = cs.flatten ∧ (demuxRun cs).hidden = [] := by
  have h := feedAll_vis cs {} rfl (by simpa using hopen)
  obtain ⟨h1, h2, h3⟩ := h
  unfold demuxRun flushD
  rw [h1]
  simp only [Bool.false_eq_true, if_false]
  constructor
  · simpa using h3
  · simpa using h2

/-- Witness for C2 at a concrete marker-free two-chunk stream. -/
theorem c2_streaming_passthrough_witness :
    splitFirst openTag (["Revenue ".data, "rose <th".data].flatten) = none ∧
    splitFirst closeTag (["Revenue ".data, "rose <th".data].flatten) = none ∧
    ((demuxRun ["Revenue ".data, "rose <th".data]).visible =
        (["Revenue ".data, "rose <th".data] : List (List Char)).flatten ∧
      (demuxRun ["Revenue ".data, "rose <th".data]).hidden = []) :=
  ⟨by decide, by decide,
    c2_streaming_passthrough ["Revenue ".data, "rose <th".data] (by decide) (by decide)⟩

/-- C9 counterexample: when a chunk boundary falls exactly between
`"</think>"` and the following `"\n"`, the newline is NOT swallowed: it
is emitted on the visible channel.  With chunks `"<think>a</think>"`
then `"\nworld"`, the visible output is `"\nworld"`, not `"world"`. -/
theorem c9_newline_leak_counterexample :
    (demuxRun ["<think>a</think>".data, "\nworld".data]).visible = "\nworld".data ∧
    '\n' ∈ (demuxRun ["<think>a</think>".data, "\nworld".data]).visible ∧
    (demuxRun ["<think>a</think>".data, "\nworld".data]).hidden = "a".data := by
  decide

/-- Feeding a concatenation of chunk lists is feeding them in turn. -/
theorem feedAll_append (xs ys : List (List Char)) : ∀ st : Demux,
    feedAll st (xs ++ ys) = feedAll (feedAll st xs) ys := by
  induction xs with
  | nil => intro st; rfl
  | cons c cs ih =>
    intro st
    rw [List.cons_append]
    simp only [feedAll]
    exact ih (feedChunk st c)

/-- Unfolding `splitFirst` past a head character that cannot start the
pattern. -/
theorem splitFirst_cons_map (pat : List Char) (c : Char) (l : List Char)
    (h : hasPre pat (c :: l) = false) :
    splitFirst pat (c :: l) =
      (splitFirst pat l).map (fun pr => (c :: pr.1, pr.2)) := by
  rw [splitFirst]
  simp only [h, Bool.false_eq_true, if_false]
  cases splitFirst pat l with
  | none => rfl
  | some pr => rfl

/-- Chunking independence on `thinkText`, one step: feeding the segment
of `thinkText` from position `i` to position `j` onto the canonical
state at `i` yields the canonical state at `j` — for every pair of
boundary positions.  Checked exhaustively. -/
theorem feedChunk_thinkSeg :
    ∀ i < 21, ∀ j < 21, i ≤ j →
      feedChunk (stateOf i) ((thinkText.drop i).take (j - i)) = stateOf j := by
  decide

/-- Chunking independence on `thinkText`: every chunking of the segment
of `thinkText` from position `i` to position `j`, with chunk boundaries
anywhere, drives the demux from the canonical state at `i` to the
canonical state at `j`. -/
theorem feedAll_thinkSeg (cs : List (List Char)) : ∀ i j : Nat, i ≤ j → j ≤ 20 →
    cs.flatten = (thinkText.drop i).take (j - i) →
    feedAll (stateOf i) cs = stateOf j := by
  have hT : thinkText.length = 20 := by decide
  induction cs with
  | nil =>
    intro i j hij hj hflat
    have hlen := congrArg List.length hflat
    simp [List.length_take, List.length_drop, hT] at hlen
    have hji : j = i := by omega
    rw [hji]
    rfl
  | cons c rest ih =>
    intro i j hij hj hflat
    rw [List.flatten_cons] at hflat
    have hlen := congrArg List.length hflat
    simp [List.length_take, List.length_drop, hT] at hlen
    have hmin : min (j - i) (20 - i) = j - i := by omega
    rw [hmin] at hlen
    have hcl : c.length ≤ j - i := by omega
    have hc : c = (thinkText.drop i).take c.length := by
      have h1 : ((thinkText.drop i).take (j - i)).take c.length =
          (thinkText.drop i).take c.length := by
        rw [List.take_take, Nat.min_eq_left hcl]
      rw [← h1, ← hflat]
      simp [List.take_left]
    have hrest : rest.flatten =
        (thinkText.drop (i + c.length)).take (j - (i + c.length)) := by
      have h1 : rest.flatten = ((thinkText.drop i).take (j - i)).drop c.length := by
        rw [← hflat]
        simp [List.drop_left]
      rw [h1, List.drop_take, List.drop_drop]
      have e1 : j - i - c.length = j - (i + c.length) := by omega
      rw [e1]
    simp only [feedAll]
    have hi21 : i < 21 := by omega
    have hm21 : i + c.length < 21 := by omega
    have him : i ≤ i + c.length := by omega
    have hstep : feedChunk (stateOf i) c = stateOf (i + c.length) := by
      have h2 := feedChunk_thinkSeg i hi21 (i + c.length) hm21 him
      rw [Nat.add_sub_cancel_left] at h2
      rw [← hc] at h2
      exact h2
    rw [hstep]
    exact ih (i + c.length) j (by omega) hj hrest

/-- When the chunk carrying the final characters of `thinkText` also
carries the following newline, the newline is swallowed: from the
canonical state at any position `i` strictly inside `thinkText`, feeding
the rest of `thinkText` plus the newline lands in the fully-closed state
with hidden output `"hello"`, empty buffer, and no newline anywhere.
Checked exhaustively over all boundary positions. -/
theorem feedChunk_newline_swallow :
    ∀ i < 20, feedChunk (stateOf i) (thinkText.drop i ++ ['\n']) =
      { thinking := false, buffer := [], visible := [], hidden := "hello".data } := by
  decide

/-- When the chunk boundary falls exactly between the close marker and
the newline, the newline arrives in visible mode and is retained in the
buffer (to be emitted visibly), not swallowed. -/
theorem feedChunk_newline_leak :
    feedChunk (stateOf 20) (thinkText.drop 20 ++ ['\n']) =
      { thinking := false, buffer := ['\n'], visible := [], hidden := "hello".data } := by
  decide

/-- C9 as amended, quantified over chunk-boundary placements: for the
stream `"<think>hello</think>" ++ "\n" ++ tail`, chunked as an arbitrary
chunking `cs₀` of the first `i` characters (boundaries anywhere,
including inside either marker), then one chunk holding the remaining
`20 - i` characters plus the newline, then an arbitrary marker-free
chunking `cs` of the tail: whenever `i < 20` — i.e. the close marker's
final character and the newline arrive in the same chunk, so the newline
is already in the pending buffer when the close marker is recognized —
the newline is swallowed (it appears on neither channel: visible output
is exactly the tail, hidden output exactly `"hello"`); and in the one
remaining case `i = 20` — a chunk boundary exactly between `"</think>"`
and the newline — the newline is emitted on the visible channel. -/
theorem c9_close_newline_boundary (cs₀ : List (List Char)) (i : Nat)
    (cs : List (List Char))
    (hi : i ≤ 20)
    (hcs₀ : cs₀.flatten = thinkText.take i)
    (hopen : splitFirst openTag cs.flatten = none)
    (hclose : splitFirst closeTag cs.flatten = none) :
    (i < 20 →
      (demuxRun (cs₀ ++ [thinkText.drop i ++ ['\n']] ++ cs)).visible = cs.flatten ∧
      (demuxRun (cs₀ ++ [thinkText.drop i ++ ['\n']] ++ cs)).hidden = "hello".data) ∧
    (i = 20 →
      (demuxRun (cs₀ ++ [thinkText.drop i ++ ['\n']] ++ cs)).visible = '\n' :: cs.flatten ∧
      (demuxRun (cs₀ ++ [thinkText.drop i ++ ['\n']] ++ cs)).hidden = "hello".data) := by
  have hzero : (stateOf 0) = ({} : Demux) := by decide
  have hpre : feedAll {} cs₀ = stateOf i := by
    rw [← hzero]
    apply feedAll_thinkSeg cs₀ 0 i (Nat.zero_le i) hi
    simpa using hcs₀
  have hrun : demuxRun (cs₀ ++ [thinkText.drop i ++ ['\n']] ++ cs) =
      flushD (feedAll (feedChunk (stateOf i) (thinkText.drop i ++ ['\n'])) cs) := by
    unfold demuxRun
    rw [feedAll_append, feedAll_append, hpre]
    rfl
  constructor
  · intro hlt
    rw [hrun, feedChunk_newline_swallow i hlt]
    have hv := feedAll_vis cs
      { thinking := false, buffer := [], visible := [], hidden := "hello".data }
      rfl (by simpa using hopen)
    obtain ⟨h1, h2, h3⟩ := hv
    unfold flushD
    rw [h1]
    simp only [Bool.false_eq_true, if_false]
    exact ⟨by simpa using h3, by simpa using h2⟩
  · intro heq
    subst heq
    rw [hrun, feedChunk_newline_leak]
    have hcons : splitFirst openTag ('\n' :: cs.flatten) = none := by
      rw [splitFirst_cons_map openTag '\n' cs.flatten rfl, hopen]
      rfl
    have hv := feedAll_vis cs
      { thinking := false, buffer := ['\n'], visible := [], hidden := "hello".data }
      rfl (by simpa using hcons)
    obtain ⟨h1, h2, h3⟩ := hv
    unfold flushD
    rw [h1]
    simp only [Bool.false_eq_true, if_false]
    exact ⟨by simpa using h3, by simpa using h2⟩

/-- Witness for the amended C9: the reasoning prefix arrives split after
`"<think>he"`, with a boundary inside the close marker (`i = 16`), the
newline rides with the marker's final characters, and the tail is
chunked as `"wor"`, `"ld"`; the theorem then gives visible `"world"`,
hidden `"hello"`. -/
theorem c9_close_newline_boundary_witness :
    (16 ≤ 20 ∧
      (["<think>he".data, "llo</th".data] : List (List Char)).flatten =
        thinkText.take 16 ∧
      splitFirst openTag (["wor".data, "ld".data] : List (List Char)).flatten = none ∧
      splitFirst closeTag (["wor".data, "ld".data] : List (List Char)).flatten = none) ∧
    ((16 < 20 →
      (demuxRun (["<think>he".data, "llo</th".data] ++ [thinkText.drop 16 ++ ['\n']] ++
          ["wor".data, "ld".data])).visible =
        (["wor".data, "ld".data] : List (List Char)).flatten ∧
      (demuxRun (["<think>he".data, "llo</th".data] ++ [thinkText.drop 16 ++ ['\n']] ++
          ["wor".data, "ld".data])).hidden = "hello".data) ∧
    (16 = 20 →
      (demuxRun (["<think>he".data, "llo</th".data] ++ [thinkText.drop 16 ++ ['\n']] ++
          ["wor".data, "ld".data])).visible =
        '\n' :: (["wor".data, "ld".data] : List (List Char)).flatten ∧
      (demuxRun (["<think>he".data, "llo</th".data] ++ [thinkText.drop 16 ++ ['\n']] ++
          ["wor".data, "ld".data])).hidden = "hello".data)) :=
  ⟨⟨by decide, by decide, by decide, by decide⟩,
    c9_close_newline_boundary ["<think>he".data, "llo</th".data] 16
      ["wor".data, "ld".data] (by decide) (by decide) (by decide) (by decide)⟩

/-! ### Behaviour of the chunk pump -/

/-- An interrupt at the `(k+1)`-th pull stops the pump with
`stream_interrupted = true` and `full_content` equal to everything
accumulated plus the text of the first `k` content chunks. -/
theorem pump_interrupt (k : Nat) : ∀ (chunks : List Chunk) (st : PumpSt),
    k ≤ chunks.length →
    (pump (some k) chunks st).2 = true ∧
    (pump (some k) chunks st).1.fullContent =
      st.fullContent ++ contentConcat (chunks.take k) := by
  induction k with
  | zero =>
    intro chunks st _
    cases chunks <;> simp [pump, contentConcat]
  | succ k ih =>
    intro chunks st hk
    cases chunks with
    | nil => simp at hk
    | cons c rest =>
      have hlen : k ≤ rest.length := by simpa using hk
      have hrec : pump (some (k + 1)) (c :: rest) st =
          pump (some k) rest (stepChunk st c) := by
        rfl
      rw [hrec]
      obtain ⟨h1, h2⟩ := ih rest (stepChunk st c) hlen
      refine ⟨h1, ?_⟩
      rw [h2]
      cases c with
      | content t => simp [stepChunk, contentConcat]
      | response m => simp [stepChunk, contentConcat]

/-- Without an interrupt, the pump terminates when the lazy sequence is
exhausted; if no `response`-kind chunk ever arrives, the `message`
variable keeps its initial value. -/
theorem pump_no_terminal : ∀ (chunks : List Chunk) (st : PumpSt),
    chunks.all isContentChunk = true →
    (pump none chunks st).2 = false ∧
    (pump none chunks st).1.message = st.message := by
  intro chunks
  induction chunks with
  | nil => intro st _; exact ⟨rfl, rfl⟩
  | cons c rest ih =>
    intro st hall
    simp only [List.all_cons, Bool.and_eq_true] at hall
    have hrec : pump none (c :: rest) st = pump none rest (stepChunk st c) := rfl
    rw [hrec]
    obtain ⟨h1, h2⟩ := ih (stepChunk st c) hall.2
    refine ⟨h1, ?_⟩
    rw [h2]
    cases c with
    | content t => rfl
    | response m => simp [isContentChunk] at hall

/-! ### Claims about the agent loop -/

/-- C3 counterexample: interrupted after consuming the single chunk
`"Revenue roseABCDEF"`, the demux has emitted exactly `"Revenue rose"`
on the visible channel, yet the committed assistant message's content is
the full raw chunk text `"Revenue roseABCDEF"`, not the visible text —
so the claim that the content equals the visible text emitted so far is
false (the return value `""` and the single appended message do hold). -/
theorem c3_interrupt_commit_counterexample :
    (pump (some 1) [Chunk.content "Revenue roseABCDEF".data] {}).2 = true ∧
    (pump (some 1) [Chunk.content "Revenue roseABCDEF".data] {}).1.demux.visible =
      "Revenue rose".data ∧
    run true (fun _ _ => []) "s".data [] "q".data
        [ChatRes.stream [Chunk.content "Revenue roseABCDEF".data] (some 1)] =
      Outcome.ret RunRet.empty
        [{ role := .system, content := "s".data },
         { role := .user, content := "q".data },
         { role := .assistant, content := "Revenue roseABCDEF".data, tool_calls := none }] ∧
    "Revenue roseABCDEF".data ≠ "Revenue rose".data := by
  decide

/-- C3 as amended: on a `KeyboardInterrupt` after `k` pulled chunks, the
loop consumes no further chunks, appends exactly one assistant message
whose content is the full raw streamed content consumed so far (the
concatenation of the first `k` content deltas, which may include buffered
unemitted text and think-marker text), with `tool_calls` null, and
returns the empty string. -/
theorem c3_interrupt_commits_raw_content (sm : Bool)
    (exec : String → String → List Char) (step : Nat) (rest : List ChatRes)
    (hist : List Msg) (chunks : List Chunk) (k : Nat)
    (hk : k ≤ chunks.length)
    (hne : contentConcat (chunks.take k) ≠ []) :
    runLoop sm exec step (ChatRes.stream chunks (some k) :: rest) hist =
      Outcome.ret RunRet.empty
        (hist ++ [{ role := .assistant, content := contentConcat (chunks.take k),
                    tool_calls := none }]) := by
  obtain ⟨h1, h2⟩ := pump_interrupt k chunks {} hk
  rcases hpe : pump (some k) chunks {} with ⟨st, flag⟩
  rw [hpe] at h1 h2
  simp only at h1 h2
  subst h1
  rw [runLoop]
  simp only [hpe, h2]
  simp [hne]

/-- Witness for the amended C3 at a concrete interrupted stream. -/
theorem c3_interrupt_commits_raw_content_witness :
    1 ≤ ([Chunk.content "hi".data] : List Chunk).length ∧
    contentConcat (([Chunk.content "hi".data] : List Chunk).take 1) ≠ [] ∧
    runLoop true (fun _ _ => []) 0
        [ChatRes.stream [Chunk.content "hi".data] (some 1)] [] =
      Outcome.ret RunRet.empty
        [{ role := .assistant,
           content := contentConcat (([Chunk.content "hi".data] : List Chunk).take 1),
           tool_calls := none }] :=
  ⟨by decide, by decide,
    c3_interrupt_commits_raw_content true (fun _ _ => []) 0 []
      [] [Chunk.content "hi".data] 1 (by decide) (by decide)⟩

/-- C4: if the chat call raises on any iteration — the error script entry
may sit behind arbitrarily many earlier rounds, reached through the
loop's recursion — `run` returns an error string and the history is
exactly what it was when that chat call began; the second conjunct
exhibits this on a concrete script whose second-iteration chat call
raises after a first tool round. -/
theorem c4_chat_error_preserves_history :
    (∀ (sm : Bool) (exec : String → String → List Char) (step : Nat)
        (rest : List ChatRes) (hist : List Msg),
        runLoop sm exec step (ChatRes.err :: rest) hist =
          Outcome.ret RunRet.errorStr hist) ∧
    run false (fun _ _ => "res".data) "s".data [] "q".data
        [ChatRes.msg { role := .assistant, content := [],
                       tool_calls := some [⟨"a", "get_current_time", "x"⟩] },
         ChatRes.err] =
      Outcome.ret RunRet.errorStr
        [{ role := .system, content := "s".data },
         { role := .user, content := "q".data },
         { role := .assistant, content := [],
           tool_calls := some [⟨"a", "get_current_time", "x"⟩] },
         { role := .tool, content := "res".data, tool_call_id := some "a" }] := by
  exact ⟨fun _ _ _ _ _ => rfl, by decide⟩

/-- C5 counterexample: when the stream ends with only content chunks and
no terminal `response` chunk, `FinAgent.run` does not complete the turn
with a synthetic assistant message — it crashes with an uncaught
`AttributeError` (`message` is still `None` when `.tool_calls` is read at
line 278), appending nothing to the history. -/
theorem c5_missing_terminal_counterexample :
    run true (fun _ _ => []) "s".data [] "q".data
        [ChatRes.stream [Chunk.content "hi".data] none] =
      Outcome.crash
        [{ role := .system, content := "s".data },
         { role := .user, content := "q".data }] := by
  decide

/-- C5 as amended: the pump does terminate at the end of the chunk
sequence (it never hangs), but if no `response`-kind chunk arrived the
loop then raises an uncaught `AttributeError` on `message.tool_calls`
instead of assembling a synthetic assistant message; no history entry is
appended for the turn. -/
theorem c5_missing_terminal_crashes (sm : Bool)
    (exec : String → String → List Char) (step : Nat) (rest : List ChatRes)
    (hist : List Msg) (chunks : List Chunk)
    (hc : chunks.all isContentChunk = true) :
    runLoop sm exec step (ChatRes.stream chunks none :: rest) hist =
      Outcome.crash hist := by
  obtain ⟨h1, h2⟩ := pump_no_terminal chunks {} hc
  rcases hpe : pump none chunks {} with ⟨st, flag⟩
  rw [hpe] at h1 h2
  simp only at h1 h2
  subst h1
  rw [runLoop]
  simp only [hpe, h2]

/-- Witness for the amended C5 at a concrete content-only stream. -/
theorem c5_missing_terminal_crashes_witness :
    ([Chunk.content "hi".data] : List Chunk).all isContentChunk = true ∧
    runLoop true (fun _ _ => []) 0
        [ChatRes.stream [Chunk.content "hi".data] none] [] =
      Outcome.crash [] :=
  ⟨by decide,
    c5_missing_terminal_crashes true (fun _ _ => []) 0 [] []
      [Chunk.content "hi".data] (by decide)⟩

/-- C6: an assistant message carrying tool calls with ids `"a"` then
`"b"` makes the loop append exactly two tool-role messages, the first
with `tool_call_id "a"` and the second with `tool_call_id "b"`, in
request order, each with content equal to the result of its own call —
for every dispatcher `exec` and every pair of call names/arguments. -/
theorem c6_tool_results_in_request_order (sm : Bool)
    (exec : String → String → List Char) (step : Nat) (rest : List ChatRes)
    (hist : List Msg) (c : List Char) (na aa nb ab : String) :
    runLoop sm exec step
        (ChatRes.msg { role := .assistant, content := c,
                       tool_calls := some [⟨"a", na, aa⟩, ⟨"b", nb, ab⟩] } :: rest)
        hist =
      runLoop sm exec (step + 1) rest
        (hist ++
          [{ role := .assistant, content := c,
             tool_calls := some [⟨"a", na, aa⟩, ⟨"b", nb, ab⟩] },
           { role := .tool, content := exec na aa, tool_call_id := some "a" },
           { role := .tool, content := exec nb ab, tool_call_id := some "b" }]) := by
  rw [runLoop]
  simp [mkToolMsg]

/-- C10: the loop places no upper bound on the number of chat/tool-call
rounds within one turn: for every `n` (and every value of the step
counter, which the result does not depend on), a script of `n` tool
rounds followed by a no-tool-call answer runs to completion, committing
all `n` rounds and terminating only at the message with no tool calls. -/
theorem c10_unbounded_tool_rounds (exec : String → String → List Char)
    (c : List Char) : ∀ (n step : Nat) (hist : List Msg),
    runLoop false exec step (scriptN n c) hist =
      Outcome.ret (RunRet.answer c)
        (hist ++ roundsHist exec n ++ [{ role := .assistant, content := c }]) := by
  intro n
  induction n with
  | zero =>
    intro step hist
    simp only [scriptN, List.replicate_zero, List.nil_append, roundsHist, List.append_nil]
    rfl
  | succ n ih =>
    intro step hist
    have hs : scriptN (n + 1) c = ChatRes.msg roundMsg :: scriptN n c := by
      simp [scriptN, List.replicate_succ]
    rw [hs]
    have hred : runLoop false exec step (ChatRes.msg roundMsg :: scriptN n c) hist =
        runLoop false exec (step + 1) (scriptN n c)
          (hist ++ [roundMsg] ++ [roundTC].map (mkToolMsg exec)) := rfl
    rw [hred, ih]
    simp [roundsHist, List.append_assoc]

/-! ### Claims about `execute_tool_call` -/

/-- C7 counterexample: on arguments that are not valid JSON the result is
the literal string `"Error: Invalid JSON arguments."`, which differs from
the string `"invalid arguments"` stated by the claim. -/
theorem c7_invalid_json_literal_counterexample :
    execute_tool_call (fun _ => none) (fun _ _ => []) "get_daily_price" "oops" =
      ExecResult.ok "Error: Invalid JSON arguments.".data ∧
    "Error: Invalid JSON arguments.".data ≠ "invalid arguments".data := by
  decide

/-- C7 as amended: for every tool name, when `json.loads` fails on the
arguments string, `execute_tool_call` does not raise and returns the
literal string `"Error: Invalid JSON arguments."`. -/
theorem c7_invalid_json_error_string (parse : String → Option PyObj)
    (bodies : String → PyObj → List Char) (tool_name arguments : String)
    (h : parse arguments = none) :
    execute_tool_call parse bodies tool_name arguments =
      ExecResult.ok "Error: Invalid JSON arguments.".data := by
  unfold execute_tool_call
  rw [h]

/-- Witness for the amended C7 at a concrete failing parse. -/
theorem c7_invalid_json_error_string_witness :
    (fun (_ : String) => (none : Option PyObj)) "oops" = none ∧
    execute_tool_call (fun _ => none) (fun _ _ => []) "get_stock_basic" "oops" =
      ExecResult.ok "Error: Invalid JSON arguments.".data :=
  ⟨rfl, c7_invalid_json_error_string (fun _ => none) (fun _ _ => [])
    "get_stock_basic" "oops" rfl⟩

/-- C8 counterexample: with valid-JSON arguments whose key `"foo"` does
not match any parameter of `get_stock_basic`, Python keyword binding
raises a `TypeError` that `execute_tool_call` does not catch — an
exception escapes, so the result is not a string. -/
theorem c8_exception_escapes_counterexample :
    execute_tool_call (fun _ => some (PyObj.dict ["foo"])) (fun _ _ => [])
      "get_stock_basic" "x" = ExecResult.exn := by
  decide

/-- C8 as amended: `execute_tool_call` returns a string for invalid
JSON, for unknown tool names, and whenever the parsed arguments bind to
the named tool's keyword signature; an exception escapes exactly when
the arguments parsed successfully but binding fails — the parsed value is
not a JSON object, or it has a key outside the tool's parameters, or it
misses a required parameter. -/
theorem c8_execute_exception_boundary (parse : String → Option PyObj)
    (bodies : String → PyObj → List Char) (tool_name arguments : String) :
    execute_tool_call parse bodies tool_name arguments = ExecResult.exn ↔
      ∃ v, parse arguments = some v ∧ bindOk tool_name v = false := by
  unfold execute_tool_call bindOk
  cases hp : parse arguments with
  | none => simp
  | some v =>
    simp only [Option.some.injEq]
    by_cases hg : tool_name = "get_current_time"
    · simp [hg]
    · simp only [hg, if_false]
      cases ht : toolParams tool_name with
      | none => simp
      | some pr =>
        obtain ⟨acc, req⟩ := pr
        cases v with
        | nonDict => simp
        | dict keys =>
          cases hb : (keys.all (fun k => acc.contains k) &&
              req.all (fun k => keys.contains k)) with
          | true => simp [hb]
          | false => simp [hb]

end FinAgentModel
